import Mathlib

/-
Verification development for the cursor-work repository: the gin-vuln
race-condition demo (go-framework-vulnerabilities/gin-vuln/race_condition.go)
and the distributed configuration-center design (the documents under
src/unnamed, whose embedded Go snippets define GetWithFallback, the
VersionRing local cache, and the RateLimiter admission layer).

Sequential semantics are used throughout: each Go method that runs under a
lock is embedded as a pure function on the state it protects.  The
float64-arithmetic transfer path of the demo is deliberately not embedded:
its exact-conservation property depends on IEEE-754 rounding and is outside
this development's scope.
-/

namespace RaceDemo

/-- The per-client entry SafeCheckLimit keeps in its sync.Map: a request
count and the reset deadline of the current window.  Times are integer
timestamps. -/
structure LimiterEntry where
  count : Int
  resetTime : Int
  deriving DecidableEq, Repr

/-- The SafeRateLimiter configuration from race_condition.go: window length
and per-window request limit. -/
structure SafeRateLimiter where
  window : Int
  limit : Int
  deriving Repr

/-- The entry LoadOrStore installs for a client seen for the first time:
count 0, reset deadline now plus the window. -/
def initEntry (r : SafeRateLimiter) (now : Int) : LimiterEntry :=
  { count := 0, resetTime := now + r.window }

/-- SafeCheckLimit from race_condition.go, acting on one client's entry
under that entry's mutex: if now is after the reset deadline the window is
reset; then the call is rejected when the count has reached the limit and
otherwise the count is incremented and the call admitted. -/
def SafeCheckLimit (r : SafeRateLimiter) (e : LimiterEntry) (now : Int) :
    LimiterEntry × Bool :=
  let e1 := if e.resetTime < now then ({ count := 0, resetTime := now + r.window } : LimiterEntry) else e
  if r.limit ≤ e1.count then (e1, false)
  else ({ e1 with count := e1.count + 1 }, true)

/-- A sequence of SafeCheckLimit calls for one client at the given
timestamps, returning the final entry and the list of results. -/
def runChecks (r : SafeRateLimiter) (e : LimiterEntry) : List Int → LimiterEntry × List Bool
  | [] => (e, [])
  | t :: ts =>
    let s := SafeCheckLimit r e t
    let rest := runChecks r s.1 ts
    (rest.1, s.2 :: rest.2)

end RaceDemo

namespace RaceDemo

/-- Exact description of a run of SafeCheckLimit calls inside one window (no
timestamp is past the reset deadline): the results are a block of true
answers followed only by false answers, the count grows by the number of
admitted calls, and the reset deadline never moves. -/
theorem runChecks_window_eq (r : SafeRateLimiter) (ts : List Int) :
    ∀ e : LimiterEntry, (∀ t ∈ ts, t ≤ e.resetTime) →
    (runChecks r e ts).1.count
        = e.count + ((min ts.length (r.limit - e.count).toNat : ℕ) : Int) ∧
    (runChecks r e ts).1.resetTime = e.resetTime ∧
    (runChecks r e ts).2
        = List.replicate (min ts.length (r.limit - e.count).toNat) true ++
          List.replicate (ts.length - (r.limit - e.count).toNat) false := by
  induction ts with
  | nil => intro e h; simp [runChecks]
  | cons t ts ih =>
    intro e h
    have hres : ¬ e.resetTime < t := not_lt.mpr (h t (by simp))
    by_cases hlim : r.limit ≤ e.count
    · have h1 : SafeCheckLimit r e t = (e, false) := by
        simp [SafeCheckLimit, hres, hlim]
      obtain ⟨ihc, ihr, ihres⟩ := ih e (fun x hx => h x (by simp [hx]))
      have hz : (r.limit - e.count).toNat = 0 := by omega
      refine ⟨?_, ?_, ?_⟩
      · simp only [runChecks, h1, ihc, hz]
        simp
      · simpa only [runChecks, h1] using ihr
      · simp only [runChecks, h1, ihres, hz]
        simp [List.replicate_succ]
    · push_neg at hlim
      have h1 : SafeCheckLimit r e t
          = ({ count := e.count + 1, resetTime := e.resetTime }, true) := by
        simp [SafeCheckLimit, hres, not_le.mpr hlim]
      obtain ⟨ihc, ihr, ihres⟩ :=
        ih { count := e.count + 1, resetTime := e.resetTime }
          (fun x hx => h x (by simp [hx]))
      have hmin : min (ts.length + 1) (r.limit - e.count).toNat
          = min ts.length (r.limit - (e.count + 1)).toNat + 1 := by omega
      have hsub : ts.length + 1 - (r.limit - e.count).toNat
          = ts.length - (r.limit - (e.count + 1)).toNat := by omega
      refine ⟨?_, ?_, ?_⟩
      · simp only [runChecks, h1, ihc, List.length_cons, hmin]
        push_cast
        ring
      · simpa only [runChecks, h1] using ihr
      · simp only [runChecks, h1, ihres, List.length_cons, hmin, hsub,
          List.replicate_succ, List.cons_append]

/-- Dropping the leading true answers of a true-block-then-false-block list
leaves only the false block. -/
theorem dropWhile_true_replicate (a b : ℕ) :
    (List.replicate a true ++ List.replicate b false).dropWhile (fun x => x)
      = List.replicate b false := by
  induction a with
  | zero =>
    cases b with
    | zero => simp [List.dropWhile]
    | succ n => simp [List.replicate_succ, List.dropWhile]
  | succ n ih => simp [List.replicate_succ, List.dropWhile, ih]

/-- C10: starting a fresh window for a client, and as long as no call falls
past the reset deadline, SafeCheckLimit keeps the stored count at or below
the limit, answers true at most limit times, and once it answers false every
later call in the window is also answered false. -/
theorem safeCheckLimit_window_invariant (r : SafeRateLimiter) (now : Int)
    (ts : List Int) (hlim : 0 ≤ r.limit)
    (hts : ∀ t ∈ ts, t ≤ (initEntry r now).resetTime) :
    (runChecks r (initEntry r now) ts).1.count ≤ r.limit ∧
    (runChecks r (initEntry r now) ts).2.count true ≤ r.limit.toNat ∧
    ((runChecks r (initEntry r now) ts).2.dropWhile (fun b => b)).all
        (fun b => !b) = true := by
  obtain ⟨hc, hrt, hres⟩ := runChecks_window_eq r ts (initEntry r now) hts
  have hcount0 : (initEntry r now).count = 0 := rfl
  refine ⟨?_, ?_, ?_⟩
  · rw [hc, hcount0]
    have : min ts.length (r.limit - 0).toNat ≤ (r.limit - 0).toNat := min_le_right _ _
    omega
  · rw [hres, hcount0]
    simp only [List.count_append, List.count_replicate]
    have : min ts.length (r.limit - 0).toNat ≤ (r.limit - 0).toNat := min_le_right _ _
    simp
  · rw [hres, hcount0, dropWhile_true_replicate]
    simp [List.all_eq_true, List.mem_replicate]

/-- The demo limiter: 3 requests per 60-unit window. -/
def demoLimiter : SafeRateLimiter := { window := 60, limit := 3 }

/-- Concrete instance of the window invariant: five calls in one window of
the demo limiter. -/
theorem safeCheckLimit_window_invariant_witness :
    (runChecks demoLimiter (initEntry demoLimiter 0) [1, 2, 3, 4, 5]).1.count
        ≤ demoLimiter.limit ∧
    (runChecks demoLimiter (initEntry demoLimiter 0) [1, 2, 3, 4, 5]).2.count true
        ≤ demoLimiter.limit.toNat ∧
    ((runChecks demoLimiter (initEntry demoLimiter 0) [1, 2, 3, 4, 5]).2.dropWhile
        (fun b => b)).all (fun b => !b) = true :=
  safeCheckLimit_window_invariant demoLimiter 0 [1, 2, 3, 4, 5] (by decide) (by decide)

end RaceDemo

namespace ConfigCenter

/-- A metadata value attached to a Config: the degraded marker is a boolean,
the degraded reason a string. -/
inductive MetaVal
  | b (x : Bool)
  | s (x : String)
  deriving DecidableEq, Repr

/-- A configuration document as returned by the read path: opaque value,
version number, and the metadata map (modelled as an association list, most
recent binding first). -/
structure Config where
  value : String
  version : Nat
  metadata : List (String × MetaVal) := []
  deriving DecidableEq, Repr

/-- Insert a metadata binding (later bindings shadow earlier ones). -/
def setMeta (m : List (String × MetaVal)) (k : String) (v : MetaVal) :
    List (String × MetaVal) :=
  (k, v) :: m

/-- Look up a metadata key. -/
def getMeta (m : List (String × MetaVal)) (k : String) : Option MetaVal :=
  (m.find? (fun p => p.1 = k)).map Prod.snd

/-- Errors reported by the primary store and Redis reads, classified the way
isDBError classifies them in the design document. -/
inductive SourceErr
  | dbError
  | otherErr
  deriving DecidableEq, Repr

/-- isDBError from the degraded-read snippet. -/
def isDBError : SourceErr → Bool
  | .dbError => true
  | .otherErr => false

/-- The only error GetWithFallback itself returns: ErrConfigNotFound. -/
inductive FallbackErr
  | configNotFound
  deriving DecidableEq, Repr

/-- The two metadata writes GetWithFallback performs on a stale local-cache
hit: degraded = true and degraded_reason = database_unavailable. -/
def setDegraded (c : Config) : Config :=
  { c with metadata := setMeta (setMeta c.metadata "degraded" (MetaVal.b true)) "degraded_reason" (MetaVal.s "database_unavailable") }

/-- GetWithFallback from the design document (LocalCache degraded-read
snippet), with the outcomes of its three sources as parameters: the primary
read (normalGet), the Redis read (tried only when the primary error is a
database error), and the local-cache read together with its staleness flag.
A stale local hit is marked degraded and still returned successfully; only
when every tried source yields nothing does the call fail with
ErrConfigNotFound. -/
def GetWithFallback (primary : Except SourceErr Config)
    (redis : Except SourceErr Config) (localCache : Option Config)
    (isStale : Bool) : Except FallbackErr Config :=
  match primary with
  | .ok c => .ok c
  | .error e =>
    match (if isDBError e then redis.toOption else none) with
    | some c => .ok c
    | none =>
      match localCache with
      | some c => .ok (if isStale then setDegraded c else c)
      | none => .error .configNotFound

/-- C8: GetWithFallback fails only when every source it tries yields nothing
(primary failed, Redis failed or was skipped because the primary error was
not a database error, and the local cache was empty); and a stale local
cache hit is returned as a success carrying degraded = true and
degraded_reason = database_unavailable in its metadata. -/
theorem getWithFallback_fallback_semantics (primary redis : Except SourceErr Config)
    (lc : Option Config) (st : Bool) :
    ((GetWithFallback primary redis lc st = .error .configNotFound) ↔
      ((∃ e, primary = .error e ∧
          (isDBError e = true → ∃ e2, redis = .error e2)) ∧ lc = none)) ∧
    (∀ e c, primary = .error e → (isDBError e = true → redis.toOption = none) →
      lc = some c → st = true →
      GetWithFallback primary redis lc st = .ok (setDegraded c) ∧
      getMeta (setDegraded c).metadata "degraded" = some (.b true) ∧
      getMeta (setDegraded c).metadata "degraded_reason"
          = some (.s "database_unavailable")) := by
  constructor
  · cases primary with
    | ok c => simp [GetWithFallback]
    | error e =>
      cases e with
      | dbError =>
        cases redis with
        | ok c2 => simp [GetWithFallback, isDBError, Except.toOption]
        | error e2 =>
          cases lc with
          | none => simp [GetWithFallback, isDBError, Except.toOption]
          | some c3 =>
            cases st <;> simp [GetWithFallback, isDBError, Except.toOption]
      | otherErr =>
        cases lc with
        | none => simp [GetWithFallback, isDBError]
        | some c3 => cases st <;> simp [GetWithFallback, isDBError]
  · intro e c hp hr hlc hst
    subst hp hlc hst
    refine ⟨?_, by simp [getMeta, setDegraded, setMeta], by simp [getMeta, setDegraded, setMeta]⟩
    cases e with
    | dbError =>
      have h2 : redis.toOption = none := hr rfl
      simp [GetWithFallback, isDBError, h2]
    | otherErr => simp [GetWithFallback, isDBError]

/-- A sample config for concrete instances. -/
def demoConfig : Config := { value := "v", version := 7 }

/-- Concrete instance of the fallback semantics: database down, Redis down,
stale local hit is served with the degraded markers. -/
theorem getWithFallback_fallback_semantics_witness :
    GetWithFallback (.error .dbError) (.error .dbError) (some demoConfig) true
        = .ok (setDegraded demoConfig) ∧
    getMeta (setDegraded demoConfig).metadata "degraded" = some (.b true) ∧
    getMeta (setDegraded demoConfig).metadata "degraded_reason"
        = some (.s "database_unavailable") :=
  (getWithFallback_fallback_semantics (.error .dbError) (.error .dbError)
    (some demoConfig) true).2 .dbError demoConfig rfl (fun _ => rfl) rfl rfl

/-- A retained version in the node-local cache (ConfigCache from the design
document). -/
structure ConfigCache where
  value : String
  version : Nat
  deriving DecidableEq, Repr

/-- Modelled from the spec: the VersionRing local cache retains the last 10
versions of each key (the ring buffer of the design document, kept here as
the list of retained versions, most recent first; the array, head and count
fields of the ring are represented by the list itself). -/
def ringPush (c : ConfigCache) (ring : List ConfigCache) : List ConfigCache :=
  (c :: ring).take 10

/-- Modelled from the spec: getFromLocalCache, whose body is absent from the
source; its behaviour follows the degraded-read flowchart of the design
document: a requested version still retained in the ring is served as is
(not stale), a version no longer retained is answered with the most recent
retained value flagged stale, and an empty ring yields nothing. -/
def getFromLocalCache (ring : List ConfigCache) (version : Nat) :
    Option ConfigCache × Bool :=
  match ring.find? (fun c => c.version = version) with
  | some c => (some c, false)
  | none =>
    match ring with
    | [] => (none, false)
    | newest :: _ => (some newest, true)

/-- View a retained cache record as a Config with empty metadata. -/
def toConfig (c : ConfigCache) : Config := { value := c.value, version := c.version }

/-- A degraded read: GetWithFallback invoked while both the primary store
and Redis report errors, so the answer comes from the local version ring. -/
def degradedRead (ring : List ConfigCache) (version : Nat) :
    Except FallbackErr Config :=
  GetWithFallback (.error .dbError) (.error .dbError)
    ((getFromLocalCache ring version).1.map toConfig)
    (getFromLocalCache ring version).2

/-- A full ring retaining versions 20 down to 11. -/
def cexRing : List ConfigCache :=
  [⟨"v20", 20⟩, ⟨"v19", 19⟩, ⟨"v18", 18⟩, ⟨"v17", 17⟩, ⟨"v16", 16⟩,
   ⟨"v15", 15⟩, ⟨"v14", 14⟩, ⟨"v13", 13⟩, ⟨"v12", 12⟩, ⟨"v11", 11⟩]

/-- C1 counterexample: with versions 20..11 retained, a degraded read for
version 5 — beyond the 10-version retention window — does not fail with a
stale-data error: it succeeds with the most recent retained value marked
degraded = true; and a read for version 15 — inside the window — succeeds
without any degraded marker rather than carrying degraded = true. -/
theorem degradedRead_stale_counterexample :
    degradedRead cexRing 5 = .ok (setDegraded (toConfig ⟨"v20", 20⟩)) ∧
    degradedRead cexRing 5 ≠ .error .configNotFound ∧
    getMeta (setDegraded (toConfig ⟨"v20", 20⟩)).metadata "degraded"
        = some (.b true) ∧
    degradedRead cexRing 15 = .ok (toConfig ⟨"v15", 15⟩) ∧
    getMeta (toConfig ⟨"v15", 15⟩).metadata "degraded" = none := by
  have h5 : degradedRead cexRing 5 = .ok (setDegraded (toConfig ⟨"v20", 20⟩)) := by rfl
  have h15 : degradedRead cexRing 15 = .ok (toConfig ⟨"v15", 15⟩) := by rfl
  refine ⟨h5, ?_, by rfl, h15, by rfl⟩
  rw [h5]
  exact fun h => Except.noConfusion h

/-- C1 as amended: the ring retains at most 10 versions; a degraded read for
a version still retained returns exactly that version with no degraded
marker; a degraded read for a version no longer retained returns the most
recent retained value successfully, marked degraded = true with
degraded_reason = database_unavailable, instead of failing; and the read
fails (with ErrConfigNotFound) exactly when nothing is retained for the
key. -/
theorem degradedRead_retention_amended (ring : List ConfigCache) (version : Nat) :
    (∀ c ring0, (ringPush c ring0).length ≤ 10) ∧
    (∀ c, ring.find? (fun x => x.version = version) = some c →
      degradedRead ring version = .ok (toConfig c) ∧
      getMeta (toConfig c).metadata "degraded" = none) ∧
    (ring.find? (fun x => x.version = version) = none →
      ∀ newest rest, ring = newest :: rest →
      degradedRead ring version = .ok (setDegraded (toConfig newest)) ∧
      getMeta (setDegraded (toConfig newest)).metadata "degraded" = some (.b true) ∧
      getMeta (setDegraded (toConfig newest)).metadata "degraded_reason"
          = some (.s "database_unavailable")) ∧
    (degradedRead ring version = .error .configNotFound ↔ ring = []) := by
  refine ⟨?_, ?_, ?_, ?_⟩
  · intro c ring0
    simp [ringPush]
  · intro c hfind
    constructor
    · simp [degradedRead, getFromLocalCache, hfind, GetWithFallback, isDBError,
        Except.toOption]
    · simp [getMeta, toConfig]
  · intro hfind newest rest hring
    subst hring
    refine ⟨?_, by simp [getMeta, setDegraded, setMeta], by simp [getMeta, setDegraded, setMeta]⟩
    simp [degradedRead, getFromLocalCache, hfind, GetWithFallback, isDBError,
      Except.toOption]
  · constructor
    · intro h
      cases hring : ring with
      | nil => rfl
      | cons newest rest =>
        subst hring
        cases hfind : (newest :: rest).find? (fun x => x.version = version) with
        | none =>
          simp [degradedRead, getFromLocalCache, hfind, GetWithFallback, isDBError,
            Except.toOption] at h
        | some c =>
          simp [degradedRead, getFromLocalCache, hfind, GetWithFallback, isDBError,
            Except.toOption] at h
    · intro h
      subst h
      simp [degradedRead, getFromLocalCache, GetWithFallback, isDBError,
        Except.toOption]

/-- Concrete instance of the amended degraded-read behaviour on the sample
ring. -/
theorem degradedRead_retention_amended_witness :
    degradedRead cexRing 15 = .ok (toConfig ⟨"v15", 15⟩) ∧
    getMeta (toConfig ⟨"v15", 15⟩).metadata "degraded" = none :=
  (degradedRead_retention_amended cexRing 15).2.1 ⟨"v15", 15⟩ (by decide)

/-- Status of a stored config version: Active (status 1) or Deleted
(status 0), following the config and config_version table schemas. -/
inductive CStatus
  | active
  | deleted
  deriving DecidableEq, Repr

/-- One committed version of a (namespace, key): value, per-key version
number, and status.  Immutable once committed. -/
structure ConfigVersion where
  value : String
  version : Nat
  status : CStatus
  deriving DecidableEq, Repr

/-- Modelled from the spec: the multi-version config key space maintained by
the replicated state machine; every (namespace, key) keeps all of its
committed versions, most recent first (the config row together with its
config_version history rows). -/
structure ConfigStore where
  versions : String → String → List ConfigVersion

/-- The empty key space. -/
def emptyStore : ConfigStore := ⟨fun _ _ => []⟩

/-- The version number of the most recent committed version of a key
(0 when the key has never been written, so the first Put creates
version 1). -/
def latestVersionNum (vs : List ConfigVersion) : Nat :=
  match vs with
  | [] => 0
  | v :: _ => v.version

/-- Modelled from the spec: Put appends a fresh Active version numbered one
past the latest, freezing every earlier version unchanged; returns the new
version number. -/
def Put (s : ConfigStore) (ns k v : String) : ConfigStore × Nat :=
  let vs := s.versions ns k
  let newVer := latestVersionNum vs + 1
  (⟨fun n x => if n = ns ∧ x = k then { value := v, version := newVer, status := .active } :: vs else s.versions n x⟩,
   newVer)

/-- Modelled from the spec: Delete appends a Deleted marker version; all
history is retained. -/
def Delete (s : ConfigStore) (ns k : String) : ConfigStore :=
  let vs := s.versions ns k
  let newVer := latestVersionNum vs + 1
  ⟨fun n x => if n = ns ∧ x = k then { value := "", version := newVer, status := .deleted } :: vs else s.versions n x⟩

/-- Modelled from the spec: Rollback to a retained target version appends a
new Put carrying that version's value — it never rewinds or mutates
history — and fails, leaving the store unchanged, when the target version is
not retained. -/
def Rollback (s : ConfigStore) (ns k : String) (target : Nat) :
    ConfigStore × Option Nat :=
  match (s.versions ns k).find? (fun cv => cv.version = target) with
  | none => (s, none)
  | some cv => ((Put s ns k cv.value).1, some (Put s ns k cv.value).2)

/-- Modelled from the spec: GetConfig; with the version argument omitted it
returns the latest Active version of the key, with a version given it
returns that retained version. -/
def GetConfig (s : ConfigStore) (ns k : String) (version : Option Nat) :
    Option (String × Nat) :=
  match version with
  | some v =>
    ((s.versions ns k).find? (fun cv => cv.version = v)).map
      (fun cv => (cv.value, cv.version))
  | none =>
    ((s.versions ns k).find? (fun cv => cv.status = .active)).map
      (fun cv => (cv.value, cv.version))

/-- The store after the first Put of the round-trip scenario. -/
def rtStep1 (ns k v1 : String) : ConfigStore := (Put emptyStore ns k v1).1

/-- The store after the second Put of the round-trip scenario. -/
def rtStep2 (ns k v1 v2 : String) : ConfigStore := (Put (rtStep1 ns k v1) ns k v2).1

/-- The store after rolling the round-trip scenario back to version 1. -/
def rtStep3 (ns k v1 v2 : String) : ConfigStore :=
  (Rollback (rtStep2 ns k v1 v2) ns k 1).1

/-- C2: the round-trip scenario.  From an empty key, Put v1 creates
version 1 and Get returns v1 at version 1; a second Put creates version 2
and Get returns v2 at version 2; Rollback to version 1 appends a new
version 3 carrying v1 — Get then returns v1 at version 3 while versions 1
and 2 are still retained unchanged. -/
theorem put_put_rollback_roundtrip (ns k v1 v2 : String) :
    (Put emptyStore ns k v1).2 = 1 ∧
    GetConfig (rtStep1 ns k v1) ns k none = some (v1, 1) ∧
    (Put (rtStep1 ns k v1) ns k v2).2 = 2 ∧
    GetConfig (rtStep2 ns k v1 v2) ns k none = some (v2, 2) ∧
    (Rollback (rtStep2 ns k v1 v2) ns k 1).2 = some 3 ∧
    GetConfig (rtStep3 ns k v1 v2) ns k none = some (v1, 3) ∧
    (rtStep3 ns k v1 v2).versions ns k =
      [{ value := v1, version := 3, status := .active },
       { value := v2, version := 2, status := .active },
       { value := v1, version := 1, status := .active }] := by
  have h1 : (rtStep1 ns k v1).versions ns k
      = [{ value := v1, version := 1, status := .active }] := by
    simp [rtStep1, Put, emptyStore, latestVersionNum]
  have h2 : (rtStep2 ns k v1 v2).versions ns k
      = [{ value := v2, version := 2, status := .active },
         { value := v1, version := 1, status := .active }] := by
    simp [rtStep2, Put, latestVersionNum, h1]
  have h3 : (rtStep3 ns k v1 v2).versions ns k
      = [{ value := v1, version := 3, status := .active },
         { value := v2, version := 2, status := .active },
         { value := v1, version := 1, status := .active }] := by
    simp [rtStep3, Rollback, h2, List.find?, Put, latestVersionNum]
  refine ⟨by simp [Put, emptyStore, latestVersionNum], ?_, ?_, ?_, ?_, ?_, h3⟩
  · simp [GetConfig, h1, List.find?]
  · simp [Put, h1, latestVersionNum]
  · simp [GetConfig, h2, List.find?]
  · simp [Rollback, h2, List.find?, Put, latestVersionNum]
  · simp [GetConfig, h3, List.find?]

/-- The committed mutations a store can receive: Put, Delete, and
Rollback. -/
inductive StoreOp
  | put (ns k v : String)
  | del (ns k : String)
  | rollbackTo (ns k : String) (target : Nat)

/-- Apply one committed mutation to the store. -/
def applyStoreOp (s : ConfigStore) : StoreOp → ConfigStore
  | .put ns k v => (Put s ns k v).1
  | .del ns k => Delete s ns k
  | .rollbackTo ns k t => (Rollback s ns k t).1

/-- Apply a sequence of committed mutations. -/
def runStoreOps (s : ConfigStore) (ops : List StoreOp) : ConfigStore :=
  ops.foldl applyStoreOp s

/-- Version numbers strictly decrease along each per-key version list (the
most recent version is first and carries the greatest number). -/
def VersionsSorted (s : ConfigStore) : Prop :=
  ∀ ns k, (s.versions ns k).Pairwise (fun a b => b.version < a.version)

/-- Every retained version number is at most the latest one, in a sorted
list. -/
theorem version_le_latest (vs : List ConfigVersion)
    (hs : vs.Pairwise (fun a b => b.version < a.version)) :
    ∀ cv ∈ vs, cv.version ≤ latestVersionNum vs := by
  cases vs with
  | nil => simp
  | cons h t =>
    intro cv hcv
    rcases List.mem_cons.mp hcv with rfl | hmem
    · simp [latestVersionNum]
    · have := (List.pairwise_cons.mp hs).1 cv hmem
      simp only [latestVersionNum]
      omega

/-- Put preserves the version ordering. -/
theorem versionsSorted_put (s : ConfigStore) (ns k v : String)
    (hs : VersionsSorted s) : VersionsSorted (Put s ns k v).1 := by
  intro n x
  simp only [Put]
  by_cases h : n = ns ∧ x = k
  · rw [if_pos h]
    refine List.pairwise_cons.mpr ⟨?_, ?_⟩
    · intro b hb
      have := version_le_latest (s.versions ns k) (hs ns k) b hb
      show b.version < latestVersionNum (s.versions ns k) + 1
      omega
    · obtain ⟨rfl, rfl⟩ := h
      exact hs _ _
  · rw [if_neg h]
    exact hs n x

/-- Delete preserves the version ordering. -/
theorem versionsSorted_delete (s : ConfigStore) (ns k : String)
    (hs : VersionsSorted s) : VersionsSorted (Delete s ns k) := by
  intro n x
  simp only [Delete]
  by_cases h : n = ns ∧ x = k
  · rw [if_pos h]
    refine List.pairwise_cons.mpr ⟨?_, ?_⟩
    · intro b hb
      have := version_le_latest (s.versions ns k) (hs ns k) b hb
      show b.version < latestVersionNum (s.versions ns k) + 1
      omega
    · obtain ⟨rfl, rfl⟩ := h
      exact hs _ _
  · rw [if_neg h]
    exact hs n x

/-- Rollback preserves the version ordering. -/
theorem versionsSorted_rollback (s : ConfigStore) (ns k : String) (t : Nat)
    (hs : VersionsSorted s) : VersionsSorted (Rollback s ns k t).1 := by
  unfold Rollback
  cases hfind : (s.versions ns k).find? (fun cv => cv.version = t) with
  | none => exact hs
  | some cv => exact versionsSorted_put s ns k cv.value hs

/-- Every store reachable from the empty store by committed mutations keeps
its per-key version lists strictly decreasing. -/
theorem versionsSorted_run (ops : List StoreOp) :
    ∀ s : ConfigStore, VersionsSorted s → VersionsSorted (runStoreOps s ops) := by
  induction ops with
  | nil => intro s hs; exact hs
  | cons op ops ih =>
    intro s hs
    refine ih (applyStoreOp s op) ?_
    cases op with
    | put ns k v => exact versionsSorted_put s ns k v hs
    | del ns k => exact versionsSorted_delete s ns k hs
    | rollbackTo ns k t => exact versionsSorted_rollback s ns k t hs

/-- In a sorted version list, the first Active version found is the Active
version with the greatest version number. -/
theorem find_active_max (vs : List ConfigVersion)
    (hs : vs.Pairwise (fun a b => b.version < a.version)) (cv : ConfigVersion)
    (h : vs.find? (fun c => c.status = .active) = some cv) :
    cv ∈ vs ∧ cv.status = .active ∧
      ∀ c2 ∈ vs, c2.status = .active → c2.version ≤ cv.version := by
  induction vs with
  | nil => simp at h
  | cons a t ih =>
    by_cases ha : a.status = .active
    · rw [List.find?_cons_of_pos _ (by simp [ha])] at h
      obtain rfl : a = cv := by injection h
      refine ⟨by simp, ha, ?_⟩
      intro c2 hc2 _
      rcases List.mem_cons.mp hc2 with rfl | hmem
      · exact le_refl _
      · have := (List.pairwise_cons.mp hs).1 c2 hmem
        omega
    · rw [List.find?_cons_of_neg _ (by simp [ha])] at h
      obtain ⟨hmem, hact, hmax⟩ := ih (List.pairwise_cons.mp hs).2 h
      refine ⟨List.mem_cons_of_mem a hmem, hact, ?_⟩
      intro c2 hc2 hc2a
      rcases List.mem_cons.mp hc2 with rfl | hmem2
      · exact absurd hc2a ha
      · exact hmax c2 hmem2 hc2a

/-- C6: on any store built from committed mutations, GetConfig with the
version argument omitted answers exactly with the latest Active version:
whenever it returns a value and version, that pair is a retained Active
version whose number is at least that of every other Active version of the
key; and it returns nothing precisely when the key has no Active version. -/
theorem getConfig_latest_active (ops : List StoreOp) (ns k : String) :
    (∀ v ver, GetConfig (runStoreOps emptyStore ops) ns k none = some (v, ver) →
      ∃ cv, cv ∈ (runStoreOps emptyStore ops).versions ns k ∧
        cv.value = v ∧ cv.version = ver ∧ cv.status = .active ∧
        ∀ c2 ∈ (runStoreOps emptyStore ops).versions ns k,
          c2.status = .active → c2.version ≤ ver) ∧
    (GetConfig (runStoreOps emptyStore ops) ns k none = none ↔
      ∀ cv ∈ (runStoreOps emptyStore ops).versions ns k, cv.status ≠ .active) := by
  have hsorted : VersionsSorted (runStoreOps emptyStore ops) :=
    versionsSorted_run ops emptyStore (fun _ _ => List.Pairwise.nil)
  constructor
  · intro v ver h
    simp only [GetConfig, Option.map_eq_some'] at h
    obtain ⟨cv, hfind, hpair⟩ := h
    obtain ⟨hval, hver⟩ := Prod.mk.injEq .. ▸ hpair
    obtain ⟨hmem, hact, hmax⟩ :=
      find_active_max _ (hsorted ns k) cv hfind
    exact ⟨cv, hmem, hval, hver, hact, fun c2 hc2 hc2a => hver ▸ hmax c2 hc2 hc2a⟩
  · simp only [GetConfig, Option.map_eq_none', List.find?_eq_none]
    constructor
    · intro h cv hcv hact
      have := h cv hcv
      simp [hact] at this
    · intro h cv hcv
      simp [h cv hcv]

/-- Concrete instance: after a single Put, the omitted-version read returns
that Put as the latest Active version. -/
theorem getConfig_latest_active_witness :
    ∃ cv, cv ∈ (runStoreOps emptyStore [StoreOp.put "n" "key" "a"]).versions "n" "key" ∧
      cv.value = "a" ∧ cv.version = 1 ∧ cv.status = .active ∧
      ∀ c2 ∈ (runStoreOps emptyStore [StoreOp.put "n" "key" "a"]).versions "n" "key",
        c2.status = .active → c2.version ≤ 1 :=
  (getConfig_latest_active [StoreOp.put "n" "key" "a"] "n" "key").1 "a" 1 (by rfl)

/-- Raft roles, as in the raft_state schema. -/
inductive Role
  | follower
  | candidate
  | leader
  deriving DecidableEq, Repr

/-- A Raft log entry: the term it was created in and the state-machine
mutation it carries.  Its index is its 1-based position in the log. -/
structure RLogEntry where
  term : Nat
  op : StoreOp

/-- Modelled from the spec: the per-node Raft state of the raft_state
schema — current term, vote, role, commit index and last applied index —
together with the node's log and the config state its RSM has derived. -/
structure RaftNode where
  nodeId : String
  currentTerm : Nat
  votedFor : Option String
  role : Role
  log : List RLogEntry
  commitIndex : Nat
  lastApplied : Nat
  rsm : ConfigStore

/-- A freshly started node: term 0, no vote, follower, empty log. -/
def initNode (id : String) : RaftNode :=
  { nodeId := id, currentTerm := 0, votedFor := none, role := .follower,
    log := [], commitIndex := 0, lastApplied := 0, rsm := emptyStore }

/-- The index of the last log entry. -/
def lastLogIndex (n : RaftNode) : Nat := n.log.length

/-- The term of the last log entry (0 for an empty log). -/
def lastLogTerm (n : RaftNode) : Nat := ((n.log.getLast?).map RLogEntry.term).getD 0

/-- Modelled from the spec: Apply guarded by the lastApplied check of
section 4.2 — the entry at index i is applied only when it is the next
unapplied index (i = lastApplied + 1), it is committed (i at most
commitIndex) and it is present in the log; any other call leaves the node
unchanged. -/
def applyIndex (n : RaftNode) (i : Nat) : RaftNode :=
  if i = n.lastApplied + 1 ∧ i ≤ n.commitIndex then
    match n.log.get? (i - 1) with
    | some e => { n with rsm := applyStoreOp n.rsm e.op, lastApplied := i }
    | none => n
  else n

/-- C3: the lastApplied guard makes Apply idempotent — a call on an index
already at or below lastApplied leaves the node unchanged, and a second
Apply call on any index leaves the state exactly as it was after the first
call. -/
theorem applyIndex_idempotent (n : RaftNode) (i : Nat) :
    (i ≤ n.lastApplied → applyIndex n i = n) ∧
    applyIndex (applyIndex n i) i = applyIndex n i := by
  constructor
  · intro h
    unfold applyIndex
    rw [if_neg (by omega)]
  · by_cases hcond : i = n.lastApplied + 1 ∧ i ≤ n.commitIndex
    · cases hget : n.log.get? (i - 1) with
      | none =>
        have hni : applyIndex n i = n := by
          unfold applyIndex
          rw [if_pos hcond, hget]
        rw [hni, hni]
      | some e =>
        have hni : applyIndex n i
            = { n with rsm := applyStoreOp n.rsm e.op, lastApplied := i } := by
          unfold applyIndex
          rw [if_pos hcond, hget]
        rw [hni]
        unfold applyIndex
        rw [if_neg]
        intro hc
        have h2 : i = i + 1 := hc.1
        omega
    · have hni : applyIndex n i = n := by
        unfold applyIndex
        rw [if_neg hcond]
      rw [hni, hni]

/-- Concrete instance of the idempotency guard: re-applying index 0 on a
fresh node is a no-op. -/
theorem applyIndex_idempotent_witness :
    applyIndex (initNode "node-1") 0 = initNode "node-1" :=
  (applyIndex_idempotent (initNode "node-1") 0).1 (Nat.le_refl 0)

/-- Modelled from the spec: the inputs a node reacts to — the RequestVote
and AppendEntries RPCs, a client proposal, the apply task, and the local
election-timeout and majority-vote events. -/
inductive RaftMsg
  | requestVote (term : Nat) (candidateId : String) (lastLogIdx lastLogTermArg : Nat)
  | appendEntries (term : Nat) (leaderId : String) (prevLogIndex prevLogTerm : Nat)
      (entries : List RLogEntry) (leaderCommit : Nat)
  | clientPropose (op : StoreOp)
  | applyCommitted
  | electionTimeout
  | winElection

/-- The up-to-date check of section 4.1: compare last log term first, then
last log index. -/
def logUpToDate (n : RaftNode) (lli llt : Nat) : Bool :=
  decide (lastLogTerm n < llt ∨ (lastLogTerm n = llt ∧ lastLogIndex n ≤ lli))

/-- On observing a higher term, adopt it, clear the vote and return to
follower. -/
def termCatchUp (n : RaftNode) (t : Nat) : RaftNode :=
  if n.currentTerm < t then { n with currentTerm := t, votedFor := none, role := .follower }
  else n

/-- Modelled from the spec: handling RequestVote — step up on a higher term,
then grant at most one vote per term, only to a candidate whose log is at
least as up to date. -/
def stepRequestVote (n : RaftNode) (t : Nat) (cid : String) (lli llt : Nat) : RaftNode :=
  if t = (termCatchUp n t).currentTerm ∧
      ((termCatchUp n t).votedFor = none ∨ (termCatchUp n t).votedFor = some cid) ∧
      logUpToDate (termCatchUp n t) lli llt = true then
    { termCatchUp n t with votedFor := some cid }
  else termCatchUp n t

/-- Modelled from the spec: handling AppendEntries — reject a stale term;
otherwise adopt the leader's term and return to follower; when the local log
matches at prevLogIndex the entries are appended and commitIndex advances to
the minimum of leaderCommit and the new last index, never decreasing. -/
def stepAppendEntries (n : RaftNode) (t pli plt : Nat) (entries : List RLogEntry)
    (leaderCommit : Nat) : RaftNode :=
  if t < n.currentTerm then n
  else if pli = n.log.length ∧ (pli = 0 ∨ lastLogTerm n = plt) then
    { n with currentTerm := t, role := .follower, log := n.log ++ entries, commitIndex := max n.commitIndex (min leaderCommit (n.log ++ entries).length) }
  else { n with currentTerm := t, role := .follower }

/-- Modelled from the spec: ClientPropose appends to the leader's own log;
on a follower it leaves the node unchanged (the caller gets NotLeader). -/
def stepClientPropose (n : RaftNode) (op : StoreOp) : RaftNode :=
  if n.role = .leader then { n with log := n.log ++ [⟨n.currentTerm, op⟩] }
  else n

/-- Modelled from the spec: the apply task applies the next committed
entry. -/
def stepApplyCommitted (n : RaftNode) : RaftNode := applyIndex n (n.lastApplied + 1)

/-- Modelled from the spec: election timeout — increment the term, vote for
self, become candidate. -/
def stepElectionTimeout (n : RaftNode) : RaftNode :=
  { n with currentTerm := n.currentTerm + 1, votedFor := some n.nodeId, role := .candidate }

/-- Modelled from the spec: a candidate that gathered a majority becomes
leader. -/
def stepWinElection (n : RaftNode) : RaftNode :=
  if n.role = .candidate then { n with role := .leader } else n

/-- One step of the node on one input. -/
def raftStep (n : RaftNode) : RaftMsg → RaftNode
  | .requestVote t cid lli llt => stepRequestVote n t cid lli llt
  | .appendEntries t _lid pli plt es lc => stepAppendEntries n t pli plt es lc
  | .clientPropose op => stepClientPropose n op
  | .applyCommitted => stepApplyCommitted n
  | .electionTimeout => stepElectionTimeout n
  | .winElection => stepWinElection n

/-- A run of the node over a list of inputs. -/
def raftRun (n : RaftNode) (msgs : List RaftMsg) : RaftNode := msgs.foldl raftStep n

/-- The structural invariant of the raft_state row: lastApplied at most
commitIndex, commitIndex at most the last log index. -/
def RaftInv (n : RaftNode) : Prop :=
  n.lastApplied ≤ n.commitIndex ∧ n.commitIndex ≤ lastLogIndex n

/-- applyIndex preserves the index invariant. -/
theorem applyIndex_inv (n : RaftNode) (i : Nat) (h : RaftInv n) :
    RaftInv (applyIndex n i) := by
  obtain ⟨h1, h2⟩ := h
  unfold applyIndex
  split
  · rename_i hc
    cases hget : n.log.get? (i - 1) with
    | none => exact ⟨h1, h2⟩
    | some e => exact ⟨hc.2, h2⟩
  · exact ⟨h1, h2⟩

/-- Every step preserves the index invariant. -/
theorem raftStep_inv (n : RaftNode) (m : RaftMsg) (h : RaftInv n) :
    RaftInv (raftStep n m) := by
  obtain ⟨h1, h2⟩ := h
  cases m with
  | requestVote t cid lli llt =>
    show RaftInv (stepRequestVote n t cid lli llt)
    unfold stepRequestVote
    have hcu : RaftInv (termCatchUp n t) := by
      unfold termCatchUp
      split
      · exact ⟨h1, h2⟩
      · exact ⟨h1, h2⟩
    split
    · exact hcu
    · exact hcu
  | appendEntries t lid pli plt es lc =>
    show RaftInv (stepAppendEntries n t pli plt es lc)
    unfold stepAppendEntries
    split
    · exact ⟨h1, h2⟩
    · split
      · constructor
        · exact le_trans h1 (le_max_left _ _)
        · show max n.commitIndex (min lc (n.log ++ es).length) ≤ (n.log ++ es).length
          have hlen : n.log.length ≤ (n.log ++ es).length := by simp
          have h2l : n.commitIndex ≤ n.log.length := h2
          omega
      · exact ⟨h1, h2⟩
  | clientPropose op =>
    show RaftInv (stepClientPropose n op)
    unfold stepClientPropose
    split
    · constructor
      · exact h1
      · show n.commitIndex ≤ (n.log ++ [(⟨n.currentTerm, op⟩ : RLogEntry)]).length
        have h2l : n.commitIndex ≤ n.log.length := h2
        have hlen : n.log.length ≤ (n.log ++ [(⟨n.currentTerm, op⟩ : RLogEntry)]).length := by
          simp
        omega
    · exact ⟨h1, h2⟩
  | applyCommitted => exact applyIndex_inv n (n.lastApplied + 1) ⟨h1, h2⟩
  | electionTimeout => exact ⟨h1, h2⟩
  | winElection =>
    show RaftInv (stepWinElection n)
    unfold stepWinElection
    split
    · exact ⟨h1, h2⟩
    · exact ⟨h1, h2⟩

/-- A run preserves the index invariant. -/
theorem raftRun_inv (msgs : List RaftMsg) :
    ∀ n : RaftNode, RaftInv n → RaftInv (raftRun n msgs) := by
  induction msgs with
  | nil => intro n h; exact h
  | cons m msgs ih => intro n h; exact ih (raftStep n m) (raftStep_inv n m h)

/-- The current term never decreases across a single step. -/
theorem raftStep_term_mono (n : RaftNode) (m : RaftMsg) :
    n.currentTerm ≤ (raftStep n m).currentTerm := by
  have hcu : ∀ t, n.currentTerm ≤ (termCatchUp n t).currentTerm := by
    intro t
    unfold termCatchUp
    split
    · rename_i hlt
      show n.currentTerm ≤ t
      omega
    · exact le_refl _
  cases m with
  | requestVote t cid lli llt =>
    show n.currentTerm ≤ (stepRequestVote n t cid lli llt).currentTerm
    unfold stepRequestVote
    split
    · exact hcu t
    · exact hcu t
  | appendEntries t lid pli plt es lc =>
    show n.currentTerm ≤ (stepAppendEntries n t pli plt es lc).currentTerm
    unfold stepAppendEntries
    split
    · exact le_refl _
    · rename_i hge
      split
      · show n.currentTerm ≤ t
        omega
      · show n.currentTerm ≤ t
        omega
  | clientPropose op =>
    show n.currentTerm ≤ (stepClientPropose n op).currentTerm
    unfold stepClientPropose
    split
    · exact le_refl _
    · exact le_refl _
  | applyCommitted =>
    show n.currentTerm ≤ (applyIndex n (n.lastApplied + 1)).currentTerm
    unfold applyIndex
    split
    · cases hget : n.log.get? (n.lastApplied + 1 - 1) with
      | none => exact le_refl _
      | some e => exact le_refl _
    · exact le_refl _
  | electionTimeout =>
    show n.currentTerm ≤ n.currentTerm + 1
    omega
  | winElection =>
    show n.currentTerm ≤ (stepWinElection n).currentTerm
    unfold stepWinElection
    split
    · exact le_refl _
    · exact le_refl _

/-- C4: in every state a node reaches from start-up, lastApplied is at most
commitIndex which is at most the last log index; and no operation
(RequestVote, AppendEntries, ClientPropose, Apply, or the local election
events) ever decreases the current term. -/
theorem raft_node_invariants :
    (∀ (id : String) (msgs : List RaftMsg),
      (raftRun (initNode id) msgs).lastApplied ≤ (raftRun (initNode id) msgs).commitIndex ∧
      (raftRun (initNode id) msgs).commitIndex ≤ lastLogIndex (raftRun (initNode id) msgs)) ∧
    (∀ (n : RaftNode) (m : RaftMsg), n.currentTerm ≤ (raftStep n m).currentTerm) := by
  constructor
  · intro id msgs
    exact raftRun_inv msgs (initNode id) ⟨Nat.le_refl 0, Nat.le_refl 0⟩
  · exact raftStep_term_mono

/-- Modelled from the spec: the cluster-level election state — each node's
current term, vote and role, plus the histories of granted votes
(voter, term, candidate) and of won elections (term, leader). -/
structure ElectState (N : Nat) where
  currentTerm : Fin N → Nat
  votedFor : Fin N → Option (Fin N)
  role : Fin N → Role
  granted : List (Fin N × Nat × Fin N)
  leaders : List (Nat × Fin N)

/-- All nodes start at term 0 as followers with no vote cast. -/
def einit (N : Nat) : ElectState N :=
  { currentTerm := fun _ => 0, votedFor := fun _ => none, role := fun _ => .follower,
    granted := [], leaders := [] }

/-- A node observes a higher term: adopt it, clear the vote, return to
follower. -/
def obsState {N : Nat} (s : ElectState N) (v : Fin N) (t : Nat) : ElectState N :=
  { s with currentTerm := Function.update s.currentTerm v t, votedFor := Function.update s.votedFor v none, role := Function.update s.role v .follower }

/-- A voter grants its vote in its current term, recording the grant. -/
def grantState {N : Nat} (s : ElectState N) (v c : Fin N) : ElectState N :=
  { s with votedFor := Function.update s.votedFor v (some c), granted := (v, s.currentTerm v, c) :: s.granted }

/-- Election timeout: the candidate increments its term and votes for
itself. -/
def timeoutState {N : Nat} (s : ElectState N) (c : Fin N) : ElectState N :=
  { s with currentTerm := Function.update s.currentTerm c (s.currentTerm c + 1), votedFor := Function.update s.votedFor c (some c), role := Function.update s.role c .candidate, granted := (c, s.currentTerm c + 1, c) :: s.granted }

/-- A candidate with a majority becomes leader of its current term. -/
def winState {N : Nat} (s : ElectState N) (c : Fin N) : ElectState N :=
  { s with role := Function.update s.role c .leader, leaders := (s.currentTerm c, c) :: s.leaders }

/-- Modelled from the spec: the election protocol of section 4.1 — a node
adopts any higher term it observes; a voter grants its vote at most once per
term (re-granting only the candidate it already voted for); a timeout starts
a new election with a term bump and a self-vote; and a candidate becomes
leader only with granted votes from a strict majority of the cluster for its
current term. -/
inductive EStep (N : Nat) : ElectState N → ElectState N → Prop
  | observe (s : ElectState N) (v : Fin N) (t : Nat) (h : s.currentTerm v < t) :
      EStep N s (obsState s v t)
  | grant (s : ElectState N) (v c : Fin N)
      (h : s.votedFor v = none ∨ s.votedFor v = some c) :
      EStep N s (grantState s v c)
  | timeout (s : ElectState N) (c : Fin N) :
      EStep N s (timeoutState s c)
  | win (s : ElectState N) (c : Fin N) (Q : Finset (Fin N))
      (hrole : s.role c = .candidate) (hmaj : N < 2 * Q.card)
      (hvotes : ∀ v ∈ Q, (v, s.currentTerm c, c) ∈ s.granted) :
      EStep N s (winState s c)

/-- Cluster states reachable from start-up. -/
inductive EReach (N : Nat) : ElectState N → Prop
  | init : EReach N (einit N)
  | step {s s2 : ElectState N} : EReach N s → EStep N s s2 → EReach N s2

/-- Every granted vote (v, t, c) is for a term at most v's current term,
and while v is still in term t its recorded vote is c. -/
def GrantInv {N : Nat} (s : ElectState N) : Prop :=
  ∀ p ∈ s.granted, p.2.1 ≤ s.currentTerm p.1 ∧
    (p.2.1 = s.currentTerm p.1 → s.votedFor p.1 = some p.2.2)

/-- A voter grants at most one candidate per term. -/
def VoteUnique {N : Nat} (s : ElectState N) : Prop :=
  ∀ (v : Fin N) (t : Nat) (c1 c2 : Fin N),
    (v, t, c1) ∈ s.granted → (v, t, c2) ∈ s.granted → c1 = c2

/-- Every recorded election was won with a strict majority of granted
votes. -/
def LeaderQuorum {N : Nat} (s : ElectState N) : Prop :=
  ∀ q ∈ s.leaders, ∃ Q : Finset (Fin N), N < 2 * Q.card ∧
    ∀ v ∈ Q, (v, q.1, q.2) ∈ s.granted

/-- A node in the Leader role won the recorded election of its current
term. -/
def RoleElected {N : Nat} (s : ElectState N) : Prop :=
  ∀ v : Fin N, s.role v = .leader → (s.currentTerm v, v) ∈ s.leaders

/-- The election invariant bundle. -/
def EInv {N : Nat} (s : ElectState N) : Prop :=
  GrantInv s ∧ VoteUnique s ∧ LeaderQuorum s ∧ RoleElected s

/-- Every election step preserves the invariant bundle. -/
theorem estep_inv {N : Nat} {s s2 : ElectState N} (hstep : EStep N s s2)
    (h : EInv s) : EInv s2 := by
  obtain ⟨hg, hu, hq, hr⟩ := h
  cases hstep with
  | observe v t hlt =>
    refine ⟨?_, ?_, ?_, ?_⟩
    · intro p hp
      simp only [obsState] at hp ⊢
      obtain ⟨h1, h2⟩ := hg p hp
      by_cases hpv : p.1 = v
      · rw [hpv, Function.update_same, Function.update_same]
        rw [hpv] at h1
        constructor
        · omega
        · intro hteq
          omega
      · rw [Function.update_noteq hpv, Function.update_noteq hpv]
        exact ⟨h1, h2⟩
    · intro w t2 c1 c2 h1 h2
      exact hu w t2 c1 c2 h1 h2
    · intro q hq2
      obtain ⟨Q, hm, hv⟩ := hq q hq2
      exact ⟨Q, hm, hv⟩
    · intro w hw
      simp only [obsState] at hw ⊢
      by_cases hwv : w = v
      · rw [hwv, Function.update_same] at hw
        cases hw
      · rw [Function.update_noteq hwv] at hw
        rw [Function.update_noteq hwv]
        exact hr w hw
  | grant v c hvote =>
    refine ⟨?_, ?_, ?_, ?_⟩
    · intro p hp
      simp only [grantState] at hp ⊢
      rcases List.mem_cons.mp hp with rfl | hmem
      · simp [Function.update_same]
      · obtain ⟨h1, h2⟩ := hg p hmem
        by_cases hpv : p.1 = v
        · rw [hpv, Function.update_same]
          rw [hpv] at h1 h2
          refine ⟨h1, ?_⟩
          intro hteq
          have hv2 := h2 hteq
          rcases hvote with hnone | hsome
          · rw [hnone] at hv2
            cases hv2
          · rw [hsome] at hv2
            rw [hv2]
        · rw [Function.update_noteq hpv]
          exact ⟨h1, h2⟩
    · intro w t2 c1 c2 h1 h2
      simp only [grantState, List.mem_cons] at h1 h2
      rcases h1 with he1 | hm1 <;> rcases h2 with he2 | hm2
      · simp only [Prod.mk.injEq] at he1 he2
        rw [he1.2.2, he2.2.2]
      · simp only [Prod.mk.injEq] at he1
        obtain ⟨hwv, ht2, hc1⟩ := he1
        subst hwv
        subst ht2
        subst hc1
        have hold := hg (w, s.currentTerm w, c2) hm2
        have hv2 := hold.2 rfl
        rcases hvote with hnone | hsome
        · rw [hnone] at hv2
          cases hv2
        · rw [hsome] at hv2
          exact Option.some.inj hv2
      · simp only [Prod.mk.injEq] at he2
        obtain ⟨hwv, ht2, hc2⟩ := he2
        subst hwv
        subst ht2
        subst hc2
        have hold := hg (w, s.currentTerm w, c1) hm1
        have hv2 := hold.2 rfl
        rcases hvote with hnone | hsome
        · rw [hnone] at hv2
          cases hv2
        · rw [hsome] at hv2
          exact (Option.some.inj hv2).symm
      · exact hu w t2 c1 c2 hm1 hm2
    · intro q hq2
      simp only [grantState] at hq2 ⊢
      obtain ⟨Q, hm, hv⟩ := hq q hq2
      exact ⟨Q, hm, fun w hw => List.mem_cons_of_mem _ (hv w hw)⟩
    · intro w hw
      exact hr w hw
  | timeout c =>
    refine ⟨?_, ?_, ?_, ?_⟩
    · intro p hp
      simp only [timeoutState] at hp ⊢
      rcases List.mem_cons.mp hp with rfl | hmem
      · simp [Function.update_same]
      · obtain ⟨h1, h2⟩ := hg p hmem
        by_cases hpc : p.1 = c
        · rw [hpc, Function.update_same, Function.update_same]
          rw [hpc] at h1
          constructor
          · omega
          · intro hteq
            omega
        · rw [Function.update_noteq hpc, Function.update_noteq hpc]
          exact ⟨h1, h2⟩
    · intro w t2 c1 c2 h1 h2
      simp only [timeoutState, List.mem_cons] at h1 h2
      rcases h1 with he1 | hm1 <;> rcases h2 with he2 | hm2
      · simp only [Prod.mk.injEq] at he1 he2
        rw [he1.2.2, he2.2.2]
      · simp only [Prod.mk.injEq] at he1
        obtain ⟨hwc, ht2, hc1⟩ := he1
        have hold := hg (w, t2, c2) hm2
        have hle : t2 ≤ s.currentTerm w := hold.1
        rw [ht2, hwc] at hle
        exact absurd hle (by omega)
      · simp only [Prod.mk.injEq] at he2
        obtain ⟨hwc, ht2, hc2⟩ := he2
        have hold := hg (w, t2, c1) hm1
        have hle : t2 ≤ s.currentTerm w := hold.1
        rw [ht2, hwc] at hle
        exact absurd hle (by omega)
      · exact hu w t2 c1 c2 hm1 hm2
    · intro q hq2
      simp only [timeoutState] at hq2 ⊢
      obtain ⟨Q, hm, hv⟩ := hq q hq2
      exact ⟨Q, hm, fun w hw => List.mem_cons_of_mem _ (hv w hw)⟩
    · intro w hw
      simp only [timeoutState] at hw ⊢
      by_cases hwc : w = c
      · rw [hwc, Function.update_same] at hw
        cases hw
      · rw [Function.update_noteq hwc] at hw
        rw [Function.update_noteq hwc]
        exact hr w hw
  | win c Q hrole hmaj hvotes =>
    refine ⟨?_, ?_, ?_, ?_⟩
    · intro p hp
      exact hg p hp
    · intro w t2 c1 c2 h1 h2
      exact hu w t2 c1 c2 h1 h2
    · intro q hq2
      simp only [winState, List.mem_cons] at hq2
      rcases hq2 with rfl | hmem
      · exact ⟨Q, hmaj, hvotes⟩
      · exact hq q hmem
    · intro w hw
      simp only [winState] at hw ⊢
      by_cases hwc : w = c
      · subst hwc
        rw [Function.update_same] at hw
        exact List.mem_cons_self _ _
      · rw [Function.update_noteq hwc] at hw
        exact List.mem_cons_of_mem _ (hr w hw)

/-- The invariant bundle holds in every reachable cluster state. -/
theorem ereach_inv {N : Nat} {s : ElectState N} (h : EReach N s) : EInv s := by
  induction h with
  | init =>
    refine ⟨?_, ?_, ?_, ?_⟩
    · intro p hp
      simp [einit] at hp
    · intro w t c1 c2 h1 h2
      simp [einit] at h1
    · intro q hq2
      simp [einit] at hq2
    · intro w hw
      simp [einit] at hw
  | step hreach hstep ih => exact estep_inv hstep ih

/-- Two strict majorities of the cluster always share a voter. -/
theorem quorum_intersect {N : Nat} (Q1 Q2 : Finset (Fin N))
    (h1 : N < 2 * Q1.card) (h2 : N < 2 * Q2.card) :
    ∃ v, v ∈ Q1 ∧ v ∈ Q2 := by
  have hu : (Q1 ∪ Q2).card ≤ N := by
    have hle := Finset.card_le_univ (Q1 ∪ Q2)
    simpa [Fintype.card_fin] using hle
  have hsum : (Q1 ∪ Q2).card + (Q1 ∩ Q2).card = Q1.card + Q2.card :=
    Finset.card_union_add_card_inter Q1 Q2
  have hpos : 0 < (Q1 ∩ Q2).card := by omega
  obtain ⟨v, hv⟩ := Finset.card_pos.mp hpos
  exact ⟨v, Finset.mem_inter.mp hv⟩

/-- In an invariant state, at most one leader is recorded per term. -/
theorem leaders_unique {N : Nat} {s : ElectState N} (h : EInv s) (t : Nat)
    (l1 l2 : Fin N) (h1 : (t, l1) ∈ s.leaders) (h2 : (t, l2) ∈ s.leaders) :
    l1 = l2 := by
  obtain ⟨hg, hu, hq, hr⟩ := h
  obtain ⟨Q1, hm1, hv1⟩ := hq (t, l1) h1
  obtain ⟨Q2, hm2, hv2⟩ := hq (t, l2) h2
  obtain ⟨v, hvQ1, hvQ2⟩ := quorum_intersect Q1 Q2 hm1 hm2
  exact hu v t l1 l2 (hv1 v hvQ1) (hv2 v hvQ2)

/-- C7: election safety — in every reachable cluster state, at most one node
wins the election of any given term, and no two distinct nodes
simultaneously hold the Leader role for the same term. -/
theorem election_safety (N : Nat) (s : ElectState N) (h : EReach N s) :
    (∀ (t : Nat) (l1 l2 : Fin N),
      (t, l1) ∈ s.leaders → (t, l2) ∈ s.leaders → l1 = l2) ∧
    (∀ l1 l2 : Fin N, s.role l1 = .leader → s.role l2 = .leader →
      s.currentTerm l1 = s.currentTerm l2 → l1 = l2) := by
  have hinv := ereach_inv h
  constructor
  · intro t l1 l2 h1 h2
    exact leaders_unique hinv t l1 l2 h1 h2
  · intro l1 l2 hr1 hr2 hterm
    have m1 := hinv.2.2.2 l1 hr1
    have m2 := hinv.2.2.2 l2 hr2
    rw [hterm] at m1
    exact leaders_unique hinv (s.currentTerm l2) l1 l2 m1 m2

/-- Step 0 of the witness run: a fresh 3-node cluster. -/
def w0 : ElectState 3 := einit 3

/-- Step 1: node 0 times out and starts the election of term 1. -/
def w1 : ElectState 3 := timeoutState w0 0

/-- Step 2: node 1 observes term 1. -/
def w2 : ElectState 3 := obsState w1 1 1

/-- Step 3: node 1 grants its term-1 vote to node 0. -/
def w3 : ElectState 3 := grantState w2 1 0

/-- Step 4: node 0 wins term 1 with the majority of nodes 0 and 1. -/
def w4 : ElectState 3 := winState w3 0

/-- The witness run is reachable. -/
theorem w4_reach : EReach 3 w4 :=
  EReach.step
    (EReach.step
      (EReach.step (EReach.step EReach.init (EStep.timeout w0 0))
        (EStep.observe w1 1 1 (by decide)))
      (EStep.grant w2 1 0 (Or.inl (by decide))))
    (EStep.win w3 0 {0, 1} (by decide) (by decide) (by decide))

/-- Concrete instance of election safety on the witness run: node 0 is the
unique leader of term 1. -/
theorem election_safety_witness :
    EReach 3 w4 ∧ (1, (0 : Fin 3)) ∈ w4.leaders ∧ (0 : Fin 3) = 0 :=
  ⟨w4_reach, by decide,
    (election_safety 3 w4 w4_reach).1 1 0 0 (by decide) (by decide)⟩

end ConfigCenter

namespace Admission

/-- The operation classes that get their own global bucket. -/
inductive OpClass
  | read
  | write
  | admin
  deriving DecidableEq, Repr

/-- The RateLimiter of the design document: refill rate per second, bucket
capacity, current tokens and the time of the last refill.  Tokens and time
are kept as exact rationals so the continuous refill is modelled exactly. -/
structure RateLimiter where
  rate : ℕ
  capacity : ℕ
  tokens : ℚ
  lastUpdate : ℚ

/-- A bucket as NewRateLimiter creates it: full at creation time. -/
def NewRateLimiter (rate capacity : ℕ) (now : ℚ) : RateLimiter :=
  { rate := rate, capacity := capacity, tokens := capacity, lastUpdate := now }

/-- Modelled from the spec: continuous refill at the configured per-second
rate, capped at the bucket capacity. -/
def refill (rl : RateLimiter) (now : ℚ) : RateLimiter :=
  { rl with tokens := min (rl.capacity : ℚ) (rl.tokens + rl.rate * (now - rl.lastUpdate)), lastUpdate := now }

/-- Modelled from the spec: Allow, whose body is absent from the source —
refill the bucket, then admit the call iff a whole token is available,
consuming it. -/
def Allow (rl : RateLimiter) (now : ℚ) : RateLimiter × Bool :=
  if 1 ≤ (refill rl now).tokens then
    ({ refill rl now with tokens := (refill rl now).tokens - 1 }, true)
  else (refill rl now, false)

/-- The per-class global buckets of the design document: read 10000 rps with
burst 20000, write 1000 with burst 2000, admin 100 with burst 200. -/
def limiters (now : ℚ) : OpClass → RateLimiter
  | .read => NewRateLimiter 10000 20000 now
  | .write => NewRateLimiter 1000 2000 now
  | .admin => NewRateLimiter 100 200 now

/-- Allow dispatched on the class's own bucket: only that bucket changes. -/
def AllowClass (ls : OpClass → RateLimiter) (cls : OpClass) (now : ℚ) :
    (OpClass → RateLimiter) × Bool :=
  (fun c => if c = cls then (Allow (ls cls) now).1 else ls c, (Allow (ls cls) now).2)

/-- A sequence of Allow calls on one bucket. -/
def runAllow (rl : RateLimiter) : List ℚ → RateLimiter × List Bool
  | [] => (rl, [])
  | t :: ts =>
    let s := Allow rl t
    let rest := runAllow s.1 ts
    (rest.1, s.2 :: rest.2)

/-- The number of tokens the bucket can still hand out by horizon T:
current tokens plus everything that can refill until T. -/
def pot (rl : RateLimiter) (T : ℚ) : ℚ := rl.tokens + rl.rate * (T - rl.lastUpdate)

/-- One Allow call never creates tokens: the potential pays one for every
admitted call, tokens stay nonnegative, and the refill timestamp moves to
now. -/
theorem allow_pot (rl : RateLimiter) (now T : ℚ) (h1 : rl.lastUpdate ≤ now)
    (_hnT : now ≤ T) (h0 : 0 ≤ rl.tokens) :
    pot (Allow rl now).1 T + (if (Allow rl now).2 = true then 1 else 0) ≤ pot rl T ∧
    0 ≤ (Allow rl now).1.tokens ∧
    (Allow rl now).1.lastUpdate = now ∧
    (Allow rl now).1.rate = rl.rate := by
  have hmin : min (rl.capacity : ℚ) (rl.tokens + rl.rate * (now - rl.lastUpdate))
      ≤ rl.tokens + rl.rate * (now - rl.lastUpdate) := min_le_right _ _
  have hnn : 0 ≤ min (rl.capacity : ℚ) (rl.tokens + rl.rate * (now - rl.lastUpdate)) := by
    refine le_min ?_ ?_
    · positivity
    · have hrt : (0 : ℚ) ≤ rl.rate * (now - rl.lastUpdate) := by
        have : (0 : ℚ) ≤ now - rl.lastUpdate := by linarith
        positivity
      linarith
  have hkey : rl.rate * (now - rl.lastUpdate) + rl.rate * (T - now)
      = rl.rate * (T - rl.lastUpdate) := by ring
  unfold Allow
  split
  · rename_i hcond
    refine ⟨?_, ?_, rfl, rfl⟩
    · show min (rl.capacity : ℚ) (rl.tokens + rl.rate * (now - rl.lastUpdate)) - 1 +
        rl.rate * (T - now) + 1 ≤ pot rl T
      unfold pot
      linarith
    · show (0 : ℚ) ≤ min (rl.capacity : ℚ) (rl.tokens + rl.rate * (now - rl.lastUpdate)) - 1
      have hcond2 : (1 : ℚ) ≤ min (rl.capacity : ℚ) (rl.tokens + rl.rate * (now - rl.lastUpdate)) := hcond
      linarith
  · refine ⟨?_, hnn, rfl, rfl⟩
    show min (rl.capacity : ℚ) (rl.tokens + rl.rate * (now - rl.lastUpdate)) +
      rl.rate * (T - now) + 0 ≤ pot rl T
    unfold pot
    linarith

/-- Over any in-order call sequence, the potential pays for every admitted
call: the count of true answers plus the final potential never exceeds the
starting potential, and tokens stay nonnegative. -/
theorem runAllow_pot (ts : List ℚ) :
    ∀ rl : RateLimiter, ∀ T : ℚ,
    List.Chain' (fun a b => a ≤ b) (rl.lastUpdate :: ts) → (∀ t ∈ ts, t ≤ T) →
    0 ≤ rl.tokens → rl.lastUpdate ≤ T →
    ((runAllow rl ts).2.count true : ℚ) + pot (runAllow rl ts).1 T ≤ pot rl T ∧
    0 ≤ (runAllow rl ts).1.tokens ∧ (runAllow rl ts).1.lastUpdate ≤ T := by
  induction ts with
  | nil =>
    intro rl T hchain hT h0 hluT
    simp only [runAllow, List.count_nil]
    exact ⟨by norm_num, h0, hluT⟩
  | cons t ts ih =>
    intro rl T hchain hT h0 hluT
    have hlut : rl.lastUpdate ≤ t := (List.chain'_cons.mp hchain).1
    have htT : t ≤ T := hT t (by simp)
    obtain ⟨hpot, htok, hlast, hrate⟩ := allow_pot rl t T hlut htT h0
    have hchain2 : List.Chain' (fun a b => a ≤ b) ((Allow rl t).1.lastUpdate :: ts) := by
      rw [hlast]
      exact (List.chain'_cons.mp hchain).2
    obtain ⟨ihpot, ihtok, ihlast⟩ :=
      ih (Allow rl t).1 T hchain2 (fun x hx => hT x (by simp [hx])) htok
        (by rw [hlast]; exact htT)
    refine ⟨?_, ihtok, ihlast⟩
    show (((Allow rl t).2 :: (runAllow (Allow rl t).1 ts).2).count true : ℚ) +
        pot (runAllow (Allow rl t).1 ts).1 T ≤ pot rl T
    cases hb : (Allow rl t).2 with
    | true =>
      rw [if_pos hb] at hpot
      have hcnt : (true :: (runAllow (Allow rl t).1 ts).2).count true
          = (runAllow (Allow rl t).1 ts).2.count true + 1 := by
        simp [List.count_cons]
      rw [hcnt]
      push_cast
      linarith
    | false =>
      rw [if_neg (by simp [hb])] at hpot
      have hcnt : (false :: (runAllow (Allow rl t).1 ts).2).count true
          = (runAllow (Allow rl t).1 ts).2.count true := by
        simp [List.count_cons]
      rw [hcnt]
      linarith

/-- Burst admission: starting from a bucket holding m whole tokens, calls at
the same instant are admitted until the bucket is empty — exactly
min k m of k calls succeed. -/
theorem runAllow_burst (k : ℕ) :
    ∀ (m : ℕ) (rl : RateLimiter), rl.tokens = (m : ℚ) → m ≤ rl.capacity →
    (runAllow rl (List.replicate k rl.lastUpdate)).2.count true = min k m := by
  induction k with
  | zero =>
    intro m rl htok hcap
    simp [runAllow]
  | succ k ih =>
    intro m rl htok hcap
    have htok2 : (refill rl rl.lastUpdate).tokens = (m : ℚ) := by
      show min (rl.capacity : ℚ) (rl.tokens + rl.rate * (rl.lastUpdate - rl.lastUpdate))
          = (m : ℚ)
      rw [sub_self, mul_zero, add_zero, htok]
      exact min_eq_right (by exact_mod_cast hcap)
    cases m with
    | zero =>
      have hallow : Allow rl rl.lastUpdate = (refill rl rl.lastUpdate, false) := by
        unfold Allow
        rw [if_neg]
        rw [htok2]
        norm_num
      simp only [List.replicate_succ, runAllow, hallow]
      have ihh := ih 0 (refill rl rl.lastUpdate) htok2 (Nat.zero_le _)
      have hlu : (refill rl rl.lastUpdate).lastUpdate = rl.lastUpdate := rfl
      rw [hlu] at ihh
      simp [ihh]
    | succ m2 =>
      have hcond : (1 : ℚ) ≤ (refill rl rl.lastUpdate).tokens := by
        rw [htok2]
        exact_mod_cast Nat.succ_le_succ (Nat.zero_le m2)
      have hallow : Allow rl rl.lastUpdate
          = ({ refill rl rl.lastUpdate with tokens := (refill rl rl.lastUpdate).tokens - 1 },
             true) := by
        unfold Allow
        rw [if_pos hcond]
      have hstok : ({ refill rl rl.lastUpdate with tokens := (refill rl rl.lastUpdate).tokens - 1 } : RateLimiter).tokens = (m2 : ℚ) := by
        show (refill rl rl.lastUpdate).tokens - 1 = (m2 : ℚ)
        rw [htok2]
        push_cast
        ring
      have hscap : m2 ≤ ({ refill rl rl.lastUpdate with tokens := (refill rl rl.lastUpdate).tokens - 1 } : RateLimiter).capacity := by
        show m2 ≤ rl.capacity
        omega
      have ihh := ih m2 _ hstok hscap
      have hlu : ({ refill rl rl.lastUpdate with tokens := (refill rl rl.lastUpdate).tokens - 1 } : RateLimiter).lastUpdate = rl.lastUpdate := rfl
      rw [hlu] at ihh
      simp only [List.replicate_succ, runAllow, hallow]
      simp only [List.count_cons, ihh]
      simp
      omega

/-- C5: Allow implements a token bucket per operation class — a call is
admitted iff the continuously refilled bucket of its class holds a whole
token (other classes' buckets are untouched); a full bucket admits bursts of
exactly its capacity in whole tokens; and over any in-order call sequence
the number of admitted calls never exceeds the starting tokens plus the
configured rate times the elapsed time. -/
theorem allow_token_bucket :
    (∀ (rl : RateLimiter) (now : ℚ),
      ((Allow rl now).2 = true ↔ 1 ≤ (refill rl now).tokens)) ∧
    (∀ (ls : OpClass → RateLimiter) (cls : OpClass) (now : ℚ),
      (AllowClass ls cls now).1 cls = (Allow (ls cls) now).1 ∧
      (AllowClass ls cls now).2 = (Allow (ls cls) now).2 ∧
      ∀ c, c ≠ cls → (AllowClass ls cls now).1 c = ls c) ∧
    (∀ (k m : ℕ) (rl : RateLimiter), rl.tokens = (m : ℚ) → m ≤ rl.capacity →
      (runAllow rl (List.replicate k rl.lastUpdate)).2.count true = min k m) ∧
    (∀ (rl : RateLimiter) (ts : List ℚ) (T : ℚ),
      List.Chain' (fun a b => a ≤ b) (rl.lastUpdate :: ts) → (∀ t ∈ ts, t ≤ T) →
      0 ≤ rl.tokens → rl.lastUpdate ≤ T →
      ((runAllow rl ts).2.count true : ℚ) ≤ rl.tokens + rl.rate * (T - rl.lastUpdate)) := by
  refine ⟨?_, ?_, ?_, ?_⟩
  · intro rl now
    unfold Allow
    split
    · rename_i hc
      exact ⟨fun _ => hc, fun _ => rfl⟩
    · rename_i hc
      constructor
      · intro hcontra
        cases hcontra
      · intro hcontra
        exact absurd hcontra hc
  · intro ls cls now
    refine ⟨by simp [AllowClass], rfl, ?_⟩
    intro c hc
    simp [AllowClass, hc]
  · exact fun k => runAllow_burst k
  · intro rl ts T hchain hT h0 hluT
    obtain ⟨hpot, htok, hlast⟩ := runAllow_pot ts rl T hchain hT h0 hluT
    have hfin : 0 ≤ pot (runAllow rl ts).1 T := by
      unfold pot
      have hrt : (0 : ℚ) ≤ ((runAllow rl ts).1.rate : ℚ) * (T - (runAllow rl ts).1.lastUpdate) := by
        have hd : (0 : ℚ) ≤ T - (runAllow rl ts).1.lastUpdate := by linarith
        positivity
      linarith
    unfold pot at hpot hfin
    linarith

/-- Concrete burst instance: a fresh bucket with capacity 3 admits exactly 3
of 5 simultaneous calls. -/
theorem allow_token_bucket_witness :
    (runAllow (NewRateLimiter 2 3 0)
      (List.replicate 5 (NewRateLimiter 2 3 0).lastUpdate)).2.count true = min 5 3 :=
  allow_token_bucket.2.2.1 5 3 (NewRateLimiter 2 3 0) rfl (Nat.le_refl 3)

end Admission
